import Mathlib

/-!
Verification of the string-pool (string table) decoder of the apkparser
repository (src/stringtable.go).  The Go code is shallowly embedded over
byte streams modelled as `List Nat` (each element a byte value < 256);
machine integers are modelled as `Nat` with explicit bounds, signed
arithmetic as `Int`.  Fallible operations return `Except PErr` or
`Option`; a Go runtime panic (store into a nil map) is modelled by the
outer `Option` of `get` being `none`.
-/

namespace ApkParser

/-- Reads exactly `n` bytes from the stream, returning them and the rest;
`none` models a short read (io.ReadFull / io.CopyN failure). -/
def readBytes (n : Nat) (s : List Nat) : Option (List Nat × List Nat) :=
  if n ≤ s.length then some (s.take n, s.drop n) else none

/-- Reads a little-endian uint32 (binary.Read with binary.LittleEndian). -/
def readU32 (s : List Nat) : Option (Nat × List Nat) :=
  match s with
  | b0 :: b1 :: b2 :: b3 :: rest =>
      some (b0 + 256 * b1 + 65536 * b2 + 16777216 * b3, rest)
  | _ => none

/-- Reads a little-endian uint16. -/
def readU16 (s : List Nat) : Option (Nat × List Nat) :=
  match s with
  | b0 :: b1 :: rest => some (b0 + 256 * b1, rest)
  | _ => none

/-- Reads `n` little-endian uint16 values (binary.Read into a []uint16). -/
def readU16s : Nat → List Nat → Option (List Nat × List Nat)
  | 0, s => some ([], s)
  | n + 1, s =>
    match readU16 s with
    | none => none
    | some (u, s) =>
      match readU16s n s with
      | none => none
      | some (us, s) => some (u :: us, s)

/-- Go's unicode/utf16.Decode: permissive UTF-16 decoding into Unicode
scalar values; an unpaired surrogate becomes U+FFFD, never an error. -/
def utf16Decode : List Nat → List Nat
  | [] => []
  | [u] => if u < 0xD800 ∨ 0xE000 ≤ u then [u] else [0xFFFD]
  | u :: u2 :: rest =>
    if u < 0xD800 ∨ 0xE000 ≤ u then u :: utf16Decode (u2 :: rest)
    else if 0xD800 ≤ u ∧ u < 0xDC00 ∧ 0xDC00 ≤ u2 ∧ u2 < 0xE000 then
      ((u - 0xD800) * 1024 + (u2 - 0xDC00) + 0x10000) :: utf16Decode rest
    else 0xFFFD :: utf16Decode (u2 :: rest)

/-- Helper for `utf8Valid`: a UTF-8 continuation byte. -/
def isCont (b : Nat) : Bool := decide (0x80 ≤ b ∧ b ≤ 0xBF)

/-- Go's unicode/utf8.Valid: the byte list is well-formed UTF-8
(no overlong forms, no surrogates, nothing above U+10FFFF). -/
def utf8Valid : List Nat → Bool
  | [] => true
  | b :: rest =>
    if b ≤ 0x7F then utf8Valid rest
    else if 0xC2 ≤ b ∧ b ≤ 0xDF then
      match rest with
      | b1 :: rest1 => isCont b1 && utf8Valid rest1
      | [] => false
    else if 0xE0 ≤ b ∧ b ≤ 0xEF then
      match rest with
      | b1 :: b2 :: rest2 =>
        (if b = 0xE0 then decide (0xA0 ≤ b1 ∧ b1 ≤ 0xBF)
         else if b = 0xED then decide (0x80 ≤ b1 ∧ b1 ≤ 0x9F)
         else isCont b1) && isCont b2 && utf8Valid rest2
      | _ => false
    else if 0xF0 ≤ b ∧ b ≤ 0xF4 then
      match rest with
      | b1 :: b2 :: b3 :: rest3 =>
        (if b = 0xF0 then decide (0x90 ≤ b1 ∧ b1 ≤ 0xBF)
         else if b = 0xF4 then decide (0x80 ≤ b1 ∧ b1 ≤ 0x8F)
         else isCont b1) && isCont b2 && isCont b3 && utf8Valid rest3
      | _ => false
    else false

/-- Strips trailing zero elements, repeatedly, from the end of a list
(the for-loops dropping trailing NULs in parseString16/parseString8). -/
def stripZeros (l : List Nat) : List Nat :=
  ((l.reverse.dropWhile (fun b => b == 0))).reverse

/-- Errors produced by the string table code, one constructor per
distinct fmt.Errorf site in src/stringtable.go. -/
inductive PErr where
  | readStringCnt
  | readStyleCnt
  | readFlags
  | readStringOffset
  | readStyleOffset
  | unknownFlag (flags : Nat)
  | tooManyStrings (cnt : Nat)
  | readOffsets
  | wrongStringOffset (remainder : Int)
  | readStyleArray
  | idxNotFound (idx : Nat)
  | offsetOutOfBounds (idx offset : Nat)
  | readStrCharCount
  | readStr
  | invalidUtf8 (buf : List Nat)
deriving DecidableEq

/-- The stringTable struct.  `cache = none` models Go's nil map (the
zero value of the struct, before parseStringTable has initialized it);
`cache = some m` models an allocated map with entries `m`. -/
structure StringTable where
  isUtf8 : Bool
  stringOffsets : List Nat
  data : List Nat
  cache : Option (List (Nat × List Nat))
deriving DecidableEq

/-- Complement of a bit mask within uint32; `a &&& u32compl b` models
Go's `a &^ b` on uint32 values. -/
def u32compl (b : Nat) : Nat := 4294967295 ^^^ b

/-- parseStringTable: reads the header, validates flags and string
count, reads the raw offset table, skips the padding/style bytes up to
the declared string-data offset, and takes every remaining byte of the
bounded stream as the data region. -/
def parseStringTable (s : List Nat) : Except PErr StringTable :=
  match readU32 s with
  | none => .error .readStringCnt
  | some (stringCnt, s) =>
  match readBytes 4 s with
  | none => .error .readStyleCnt
  | some (_, s) =>
  match readU32 s with
  | none => .error .readFlags
  | some (flags, s) =>
    let isUtf8 : Bool := flags &&& 0x100 != 0
    let flags1 := if isUtf8 then flags &&& u32compl 0x100 else flags
    let flags2 := flags1 &&& u32compl 0x1
    if flags2 ≠ 0 then .error (.unknownFlag flags2)
    else
      match readU32 s with
      | none => .error .readStringOffset
      | some (stringOffset, s) =>
      match readBytes 4 s with
      | none => .error .readStyleOffset
      | some (_, s) =>
        if stringCnt ≥ 2 * 1024 * 1024 then .error (.tooManyStrings stringCnt)
        else
          match readBytes (4 * stringCnt) s with
          | none => .error .readOffsets
          | some (stringOffsets, s) =>
            let remainder : Int := (stringOffset : Int) - 7 * 4 - 4 * (stringCnt : Int)
            if remainder < 0 then .error (.wrongStringOffset remainder)
            else
              match readBytes remainder.toNat s with
              | none => .error .readStyleArray
              | some (_, s) =>
                .ok { isUtf8 := isUtf8, stringOffsets := stringOffsets,
                      data := s, cache := some [] }

/-- parseString16: decodes the 16-bit-unit length prefix (one LE uint16,
or two when the high bit 0x8000 is set), reads that many LE uint16 code
units, decodes them permissively as UTF-16 and strips trailing NULs. -/
def parseString16 (s : List Nat) : Except PErr (List Nat) :=
  match readU16 s with
  | none => .error .readStrCharCount
  | some (hi, s) =>
    match (if hi &&& 0x8000 ≠ 0 then
            match readU16 s with
            | none => none
            | some (lo, s) => some (((hi &&& 0x7FFF) <<< 16) ||| lo, s)
          else some (hi, s)) with
    | none => .error .readStrCharCount
    | some (chars, s) =>
      match readU16s chars s with
      | none => .error .readStr
      | some (buf, _) => .ok (stripZeros (utf16Decode buf))

/-- parseString8Len: decodes the 8-bit-unit length prefix (one byte, or
two when the high bit 0x80 is set). -/
def parseString8Len (s : List Nat) : Except PErr (Nat × List Nat) :=
  match s with
  | [] => .error .readStrCharCount
  | b :: s =>
    if b &&& 0x80 ≠ 0 then
      match s with
      | [] => .error .readStrCharCount
      | b2 :: s => .ok (((b &&& 0x7F) <<< 8) ||| b2, s)
    else .ok (b, s)

/-- parseString8: decodes and discards the UTF-16 length, decodes the
byte length, reads that many bytes, strips trailing NULs, and validates
the result as UTF-8 (returning the bytes themselves on success). -/
def parseString8 (s : List Nat) : Except PErr (List Nat) :=
  match parseString8Len s with
  | .error e => .error e
  | .ok (_, s) =>
  match parseString8Len s with
  | .error e => .error e
  | .ok (len8, s) =>
  match readBytes len8 s with
  | none => .error .readStr
  | some (buf, _) =>
    let buf := stripZeros buf
    if utf8Valid buf then .ok buf else .error (.invalidUtf8 buf)

/-- Little-endian uint32 read at byte position `pos` of the raw offset
table (the raw-pointer load in `get`, little-endian per the format). -/
def readU32At (l : List Nat) (pos : Nat) : Nat :=
  l.getD pos 0 + 256 * l.getD (pos + 1) 0 + 65536 * l.getD (pos + 2) 0 +
    16777216 * l.getD (pos + 3) 0

/-- Go map read: reading a nil map finds nothing. -/
def cacheLookup (c : Option (List (Nat × List Nat))) (idx : Nat) :
    Option (List Nat) :=
  match c with
  | none => none
  | some m => m.lookup idx

/-- The pure per-offset decode `get` performs on a cache miss: view the
data region from `offset` on and run the decoder selected by isUtf8. -/
def decodeAt (t : StringTable) (offset : Nat) : Except PErr (List Nat) :=
  if t.isUtf8 then parseString8 (t.data.drop offset)
  else parseString16 (t.data.drop offset)

/-- The get method.  The result is `none` exactly when Go would panic
(storing a decoded string into a nil cache map); otherwise it is the
returned (string-or-error, updated receiver) pair. -/
def get (t : StringTable) (idx : Nat) :
    Option (Except PErr (List Nat) × StringTable) :=
  if idx = 4294967295 then some (.ok [], t)
  else if t.stringOffsets.length / 4 ≤ idx then
    some (.error (.idxNotFound idx), t)
  else
    match cacheLookup t.cache idx with
    | some str => some (.ok str, t)
    | none =>
      let offset := readU32At t.stringOffsets (4 * idx)
      if t.data.length ≤ offset then
        some (.error (.offsetOutOfBounds idx offset), t)
      else
        match decodeAt t offset with
        | .error e => some (.error e, t)
        | .ok res =>
          match t.cache with
          | none => none
          | some m =>
            some (.ok res, { t with cache := some ((idx, res) :: m) })

/-- The isEmpty method: tests whether the cache map is nil. -/
def isEmpty (t : StringTable) : Bool := t.cache.isNone

/-- Little-endian encoding of a uint32, used to build concrete and
symbolic input streams for the construction theorems. -/
def u32le (n : Nat) : List Nat :=
  [n % 256, n / 256 % 256, n / 65536 % 256, n / 16777216 % 256]

/-- Little-endian encoding of a uint16. -/
def u16le (n : Nat) : List Nat := [n % 256, n / 256 % 256]

/-- Little-endian encoding of a sequence of uint16 code units. -/
def u16les : List Nat → List Nat
  | [] => []
  | u :: us => u16le u ++ u16les us

/-- The 8-bit-unit variable-length encoding of a length below 2^15:
one byte for 0-127, two bytes (high bit set on the first) otherwise. -/
def enc8 (n : Nat) : List Nat :=
  if n < 128 then [n] else [0x80 ||| n / 256, n % 256]

/-- A chunk body: the five uint32 header fields followed by the rest
(offset table, padding, data). -/
def mkChunk (cnt sty flags off sty2 : Nat) (rest : List Nat) : List Nat :=
  u32le cnt ++ (u32le sty ++ (u32le flags ++ (u32le off ++ (u32le sty2 ++ rest))))

/-- Every cached entry is exactly what re-decoding the data region at
that index's table offset produces (purity/stability of the cache). -/
def cacheConsistent (t : StringTable) : Prop :=
  ∀ idx s, cacheLookup t.cache idx = some s →
    decodeAt t (readU32At t.stringOffsets (4 * idx)) = .ok s

theorem and_pow_eq (b k : Nat) :
    b &&& 2 ^ k = if b / 2 ^ k % 2 = 1 then 2 ^ k else 0 := by
  rw [Nat.and_two_pow, Nat.testBit_to_div_mod]
  by_cases h : b / 2 ^ k % 2 = 1 <;> simp [h]

theorem and128_of_lt {b : Nat} (h : b < 128) : b &&& 128 = 0 := by
  have e := and_pow_eq b 7
  norm_num at e
  rw [e, if_neg (by omega)]

theorem and128_of_ge {b : Nat} (h1 : 128 ≤ b) (h2 : b < 256) :
    b &&& 128 = 128 := by
  have e := and_pow_eq b 7
  norm_num at e
  rw [e, if_pos (by omega)]

theorem and127 (b : Nat) : b &&& 127 = b % 128 := by
  have e := Nat.and_pow_two_sub_one_eq_mod b 7
  norm_num at e
  exact e

theorem or128_add {a : Nat} (h : a < 128) : 128 ||| a = 128 + a := by
  have e := Nat.mul_add_lt_is_or (b := a) (i := 7) (by norm_num [h]) 1
  norm_num at e
  exact e.symm

theorem shl_or_8 {a b : Nat} (h : b < 256) : (a <<< 8) ||| b = 256 * a + b := by
  have e := (Nat.mul_add_lt_is_or (b := b) (i := 8) (by norm_num [h]) a).symm
  rw [Nat.shiftLeft_eq, Nat.mul_comm a (2 ^ 8), e]

theorem and32768_of_lt {b : Nat} (h : b < 32768) : b &&& 32768 = 0 := by
  have e := and_pow_eq b 15
  norm_num at e
  rw [e, if_neg (by omega)]

theorem and32768_of_ge {b : Nat} (h1 : 32768 ≤ b) (h2 : b < 65536) :
    b &&& 32768 = 32768 := by
  have e := and_pow_eq b 15
  norm_num at e
  rw [e, if_pos (by omega)]

theorem and32767 (b : Nat) : b &&& 32767 = b % 32768 := by
  have e := Nat.and_pow_two_sub_one_eq_mod b 15
  norm_num at e
  exact e

theorem or32768_add {a : Nat} (h : a < 32768) : 32768 ||| a = 32768 + a := by
  have e := Nat.mul_add_lt_is_or (b := a) (i := 15) (by norm_num [h]) 1
  norm_num at e
  exact e.symm

theorem shl_or_16 {a b : Nat} (h : b < 65536) :
    (a <<< 16) ||| b = 65536 * a + b := by
  have e := (Nat.mul_add_lt_is_or (b := b) (i := 16) (by norm_num [h]) a).symm
  rw [Nat.shiftLeft_eq, Nat.mul_comm a (2 ^ 16), e]

theorem readBytes_exact {n : Nat} (a rest : List Nat) (h : a.length = n) :
    readBytes n (a ++ rest) = some (a, rest) := by
  subst h
  rw [readBytes, if_pos (by simp)]
  rw [List.take_left, List.drop_left]

theorem readU32_u32le {n : Nat} (h : n < 4294967296) (rest : List Nat) :
    readU32 (u32le n ++ rest) = some (n, rest) := by
  have e : n % 256 + 256 * (n / 256 % 256) + 65536 * (n / 65536 % 256) +
      16777216 * (n / 16777216 % 256) = n := by omega
  simp only [u32le, List.cons_append, List.nil_append, readU32, e]

theorem readU16_u16le {n : Nat} (h : n < 65536) (rest : List Nat) :
    readU16 (u16le n ++ rest) = some (n, rest) := by
  have e : n % 256 + 256 * (n / 256 % 256) = n := by omega
  simp only [u16le, List.cons_append, List.nil_append, readU16, e]

theorem readU16s_u16les {us : List Nat} (h : ∀ u ∈ us, u < 65536)
    (rest : List Nat) :
    readU16s us.length (u16les us ++ rest) = some (us, rest) := by
  induction us with
  | nil => simp [u16les, readU16s]
  | cons u us ih =>
    have h1 : u < 65536 := h u (by simp)
    have h2 : ∀ v ∈ us, v < 65536 := fun v hv => h v (by simp [hv])
    simp only [u16les, List.length_cons, List.append_assoc, readU16s,
      readU16_u16le h1, ih h2]

theorem readU16s_short : ∀ {n : Nat} {s : List Nat},
    s.length < 2 * n → readU16s n s = none := by
  intro n
  induction n with
  | zero => intro s h; omega
  | succ n ih =>
    intro s h
    match s with
    | [] => rfl
    | [b0] => rfl
    | b0 :: b1 :: s =>
      simp only [readU16s, readU16]
      rw [ih (by simp at h ⊢; omega)]

theorem stripZeros_append_replicate (l : List Nat) (k : Nat) :
    stripZeros (l ++ List.replicate k 0) = stripZeros l := by
  simp only [stripZeros, List.reverse_append, List.reverse_replicate]
  congr 1
  induction k with
  | zero => simp
  | succ k ih => simp [List.replicate_succ]

theorem parseString8Len_enc8 {n : Nat} (h : n < 32768) (rest : List Nat) :
    parseString8Len (enc8 n ++ rest) = .ok (n, rest) := by
  by_cases h128 : n < 128
  · simp only [enc8, if_pos h128, List.cons_append, List.nil_append,
      parseString8Len]
    rw [show (0x80 : Nat) = 128 from rfl, and128_of_lt h128]
    simp
  · simp only [enc8, if_neg h128, List.cons_append, List.nil_append,
      parseString8Len]
    have hq : n / 256 < 128 := by omega
    rw [show (0x80 : Nat) = 128 from rfl, or128_add hq]
    rw [and128_of_ge (by omega) (by omega)]
    rw [if_pos (by omega)]
    rw [show (0x7F : Nat) = 127 from rfl, and127]
    rw [show (128 + n / 256) % 128 = n / 256 by omega]
    rw [shl_or_8 (by omega)]
    rw [show 256 * (n / 256) + n % 256 = n by omega]

/-- C1: with isUtf8 true, decoding first reads and discards one
8-bit-unit variable-length value, then reads a second such value as the
byte length (a first byte with the 0x80 bit clear is itself the length
0-127, else a second byte is read and the length is
((high &&& 0x7F) <<< 8) ||| low), then reads exactly that many raw
bytes, strips trailing 0x00 bytes repeatedly, and fails with the
invalid-encoding error iff the remaining bytes are not well-formed
UTF-8; on success it returns those bytes. -/
theorem claim_c1 :
    (∀ b rest, b < 128 →
      parseString8Len (b :: rest) = .ok (b, rest) ∧ b ≤ 127) ∧
    (∀ b1 b2 rest, 128 ≤ b1 → b1 < 256 →
      parseString8Len (b1 :: b2 :: rest) =
        .ok (((b1 &&& 0x7F) <<< 8) ||| b2, rest)) ∧
    (∀ l k, stripZeros (l ++ List.replicate k 0) = stripZeros l) ∧
    (∀ n1 n2 payload rest, n1 < 32768 → n2 < 32768 → payload.length = n2 →
      parseString8 (enc8 n1 ++ (enc8 n2 ++ (payload ++ rest))) =
        if utf8Valid (stripZeros payload) then .ok (stripZeros payload)
        else .error (.invalidUtf8 (stripZeros payload))) ∧
    (∀ n1 n2 s, n1 < 32768 → n2 < 32768 → s.length < n2 →
      parseString8 (enc8 n1 ++ (enc8 n2 ++ s)) = .error .readStr) := by
  refine ⟨?_, ?_, stripZeros_append_replicate, ?_, ?_⟩
  · intro b rest h
    constructor
    · simp only [parseString8Len]
      rw [show (0x80 : Nat) = 128 from rfl, and128_of_lt h]
      simp
    · omega
  · intro b1 b2 rest h1 h2
    simp only [parseString8Len]
    rw [show (0x80 : Nat) = 128 from rfl, and128_of_ge h1 h2]
    simp
  · intro n1 n2 payload rest h1 h2 hlen
    simp only [parseString8, parseString8Len_enc8 h1,
      parseString8Len_enc8 h2, readBytes_exact payload rest hlen]
  · intro n1 n2 s h1 h2 hlen
    simp only [parseString8, parseString8Len_enc8 h1, parseString8Len_enc8 h2]
    rw [readBytes, if_neg (by omega)]

set_option maxRecDepth 40000 in
/-- Witness for C1 at a concrete input: a 200-byte payload of "A"s,
framed with the two-byte extended length form, decodes to the payload. -/
theorem claim_c1_witness :
    parseString8 (enc8 1 ++ (enc8 200 ++ (List.replicate 200 65 ++ []))) =
      .ok (stripZeros (List.replicate 200 65)) := by
  have h := claim_c1.2.2.2.1 1 200 (List.replicate 200 65) []
    (by norm_num) (by norm_num) (by simp)
  rw [h, if_pos (by decide)]

/-- C2: with isUtf8 false, decoding reads one little-endian 16-bit
unit; when its 0x8000 bit is set a second unit is read and the length
is ((high &&& 0x7FFF) <<< 16) ||| low, else the unit is the length;
it then reads exactly that many little-endian 16-bit code units,
decodes them permissively as UTF-16 (never an error on this path), and
strips trailing U+0000 scalars repeatedly. -/
theorem claim_c2 :
    (∀ n units rest, n < 32768 → units.length = n →
      (∀ u ∈ units, u < 65536) →
      parseString16 (u16le n ++ (u16les units ++ rest)) =
        .ok (stripZeros (utf16Decode units))) ∧
    (∀ h l units rest, h < 32768 → l < 65536 →
      units.length = (((32768 ||| h) &&& 0x7FFF) <<< 16) ||| l →
      (∀ u ∈ units, u < 65536) →
      parseString16
          (u16le (32768 ||| h) ++ (u16le l ++ (u16les units ++ rest))) =
        .ok (stripZeros (utf16Decode units))) ∧
    (∀ l k, stripZeros (l ++ List.replicate k 0) = stripZeros l) ∧
    (∀ n s, n < 32768 → s.length < 2 * n →
      parseString16 (u16le n ++ s) = .error .readStr) := by
  refine ⟨?_, ?_, stripZeros_append_replicate, ?_⟩
  · intro n units rest hn hlen hu
    simp only [parseString16, readU16_u16le (by omega : n < 65536)]
    rw [show (0x8000 : Nat) = 32768 from rfl, and32768_of_lt hn]
    simp only [ne_eq, not_true_eq_false, if_neg, ite_false]
    subst hlen
    simp only [readU16s_u16les hu]
  · intro h l units rest hh hl hlen hu
    rw [or32768_add hh] at hlen ⊢
    rw [show (0x7FFF : Nat) = 32767 from rfl, and32767,
      show (32768 + h) % 32768 = h by omega] at hlen
    simp only [parseString16, readU16_u16le (by omega : 32768 + h < 65536)]
    rw [show (0x8000 : Nat) = 32768 from rfl,
      and32768_of_ge (by omega) (by omega)]
    simp only [ne_eq, OfNat.ofNat_ne_zero, not_false_eq_true, if_pos,
      ite_true, readU16_u16le (by omega : l < 65536)]
    rw [show (0x7FFF : Nat) = 32767 from rfl, and32767,
      show (32768 + h) % 32768 = h by omega]
    rw [← hlen]
    simp only [readU16s_u16les hu]
  · intro n s hn hlen
    simp only [parseString16, readU16_u16le (by omega : n < 65536)]
    rw [show (0x8000 : Nat) = 32768 from rfl, and32768_of_lt hn]
    simp only [ne_eq, not_true_eq_false, if_neg, ite_false]
    rw [readU16s_short hlen]

/-- Witness for C2 at a concrete input: the extended two-unit length
form framing one lone high surrogate decodes permissively to U+FFFD. -/
theorem claim_c2_witness :
    parseString16 (u16le (32768 ||| 0) ++ (u16le 1 ++ (u16les [55296] ++ []))) =
      .ok [65533] := by
  have h := claim_c2.2.1 0 1 [55296] [] (by norm_num) (by norm_num)
    (by decide) (by decide)
  rw [h]
  rfl

/-- C4: get applied to the reserved index 0xFFFFFFFF returns the empty
string with no error and leaves the table (including the cache)
untouched, for every pool whatever its contents. -/
theorem claim_c4 (t : StringTable) : get t 4294967295 = some (.ok [], t) := by
  simp [get]

/-- C5: get applied to any non-sentinel index at or past the declared
string count fails with the index-not-found error, produces no panic,
and leaves the table unchanged, so the pool stays usable. -/
theorem claim_c5 (t : StringTable) (idx : Nat) (h1 : idx ≠ 4294967295)
    (h2 : t.stringOffsets.length / 4 ≤ idx) :
    get t idx = some (.error (.idxNotFound idx), t) := by
  simp [get, h1, h2]

/-- Witness for C5: index 0 on a pool with an empty offset table. -/
theorem claim_c5_witness :
    get ⟨false, [], [], some []⟩ 0 =
      some (.error (.idxNotFound 0), ⟨false, [], [], some []⟩) :=
  claim_c5 ⟨false, [], [], some []⟩ 0 (by decide) (by decide)

theorem get_eq_of_hit {t : StringTable} {idx : Nat} {s : List Nat}
    (h1 : idx ≠ 4294967295) (h2 : idx < t.stringOffsets.length / 4)
    (hc : cacheLookup t.cache idx = some s) :
    get t idx = some (.ok s, t) := by
  simp only [get, if_neg h1, if_neg (Nat.not_le.mpr h2), hc]

theorem get_eq_of_oob {t : StringTable} {idx : Nat}
    (h1 : idx ≠ 4294967295) (h2 : idx < t.stringOffsets.length / 4)
    (hc : cacheLookup t.cache idx = none)
    (hoff : t.data.length ≤ readU32At t.stringOffsets (4 * idx)) :
    get t idx =
      some (.error (.offsetOutOfBounds idx
        (readU32At t.stringOffsets (4 * idx))), t) := by
  simp only [get, if_neg h1, if_neg (Nat.not_le.mpr h2), hc,
    if_pos hoff]

theorem get_eq_of_miss {t : StringTable} {idx : Nat}
    (h1 : idx ≠ 4294967295) (h2 : idx < t.stringOffsets.length / 4)
    (hc : cacheLookup t.cache idx = none)
    (hoff : readU32At t.stringOffsets (4 * idx) < t.data.length) :
    get t idx =
      match decodeAt t (readU32At t.stringOffsets (4 * idx)) with
      | .error e => some (.error e, t)
      | .ok res =>
        match t.cache with
        | none => none
        | some m =>
          some (.ok res, { t with cache := some ((idx, res) :: m) }) := by
  simp only [get, if_neg h1, if_neg (Nat.not_le.mpr h2), hc,
    if_neg (Nat.not_le.mpr hoff)]

theorem pair_some_inj {α β : Type} {a c : α} {b d : β}
    (h : (some (a, b) : Option (α × β)) = some (c, d)) : a = c ∧ b = d := by
  injection h with h2
  exact ⟨congrArg Prod.fst h2, congrArg Prod.snd h2⟩

theorem cacheLookup_insert_self (m : List (Nat × List Nat)) (idx : Nat)
    (s : List Nat) : cacheLookup (some ((idx, s) :: m)) idx = some s := by
  simp [cacheLookup, List.lookup]

theorem cacheLookup_insert_ne {idx j : Nat} (m : List (Nat × List Nat))
    (h : j ≠ idx) (s : List Nat) :
    cacheLookup (some ((idx, s) :: m)) j = cacheLookup (some m) j := by
  have hb : (j == idx) = false := by simp [h]
  simp [cacheLookup, List.lookup, hb]

theorem decodeAt_cache (t : StringTable) (c : Option (List (Nat × List Nat)))
    (off : Nat) : decodeAt { t with cache := c } off = decodeAt t off := rfl

theorem parseString8Len_error : ∀ {s : List Nat} {e : PErr},
    parseString8Len s = .error e → e = PErr.readStrCharCount := by
  intro s e h
  unfold parseString8Len at h
  repeat' split at h
  all_goals simp_all

theorem parseString8_error : ∀ {s : List Nat} {e : PErr},
    parseString8 s = .error e →
    e = PErr.readStrCharCount ∨ e = PErr.readStr ∨
      ∃ b, e = PErr.invalidUtf8 b := by
  intro s e h
  unfold parseString8 at h
  cases h1 : parseString8Len s with
  | error e1 =>
    simp only [h1] at h
    simp only [Except.error.injEq] at h
    exact Or.inl (h.symm.trans (parseString8Len_error h1))
  | ok v1 =>
    obtain ⟨n1, s1⟩ := v1
    simp only [h1] at h
    cases h2 : parseString8Len s1 with
    | error e2 =>
      simp only [h2] at h
      simp only [Except.error.injEq] at h
      exact Or.inl (h.symm.trans (parseString8Len_error h2))
    | ok v2 =>
      obtain ⟨len8, s2⟩ := v2
      simp only [h2] at h
      cases h3 : readBytes len8 s2 with
      | none =>
        simp only [h3] at h
        simp only [Except.error.injEq] at h
        exact Or.inr (Or.inl h.symm)
      | some v3 =>
        obtain ⟨buf, s3⟩ := v3
        simp only [h3] at h
        by_cases hv : utf8Valid (stripZeros buf) = true
        · rw [if_pos hv] at h
          simp at h
        · rw [if_neg hv] at h
          simp only [Except.error.injEq] at h
          exact Or.inr (Or.inr ⟨stripZeros buf, h.symm⟩)

theorem parseString16_error : ∀ {s : List Nat} {e : PErr},
    parseString16 s = .error e →
    e = PErr.readStrCharCount ∨ e = PErr.readStr := by
  intro s e h
  unfold parseString16 at h
  repeat' split at h
  all_goals simp_all

theorem decodeAt_error {t : StringTable} {off : Nat} {e : PErr}
    (h : decodeAt t off = .error e) :
    e = PErr.readStrCharCount ∨ e = PErr.readStr ∨
      ∃ b, e = PErr.invalidUtf8 b := by
  unfold decodeAt at h
  split at h
  · exact parseString8_error h
  · rcases parseString16_error h with h' | h'
    · exact Or.inl h'
    · exact Or.inr (Or.inl h')

theorem get_cases : ∀ (t : StringTable) (idx : Nat)
    (r : Except PErr (List Nat)) (t' : StringTable),
    get t idx = some (r, t') →
    (t' = t ∧ (∀ s, r = .ok s →
      (idx = 4294967295 ∧ s = []) ∨
      (idx ≠ 4294967295 ∧ idx < t.stringOffsets.length / 4 ∧
        cacheLookup t.cache idx = some s))) ∨
    (∃ s m, r = .ok s ∧ t.cache = some m ∧
      cacheLookup t.cache idx = none ∧ idx ≠ 4294967295 ∧
      idx < t.stringOffsets.length / 4 ∧
      decodeAt t (readU32At t.stringOffsets (4 * idx)) = .ok s ∧
      t' = { t with cache := some ((idx, s) :: m) }) := by
  intro t idx r t' h
  by_cases h1 : idx = 4294967295
  · subst h1
    unfold get at h
    rw [if_pos rfl] at h
    obtain ⟨hr, ht⟩ := pair_some_inj h
    refine Or.inl ⟨ht.symm, fun s hs => ?_⟩
    rw [← hr] at hs
    exact Or.inl ⟨rfl, (Except.ok.inj hs).symm⟩
  · by_cases h2 : t.stringOffsets.length / 4 ≤ idx
    · unfold get at h
      rw [if_neg h1, if_pos h2] at h
      obtain ⟨hr, ht⟩ := pair_some_inj h
      refine Or.inl ⟨ht.symm, fun s hs => ?_⟩
      rw [← hr] at hs
      exact absurd hs (by simp)
    · cases hc : cacheLookup t.cache idx with
      | some str =>
        rw [get_eq_of_hit h1 (by omega) hc] at h
        obtain ⟨hr, ht⟩ := pair_some_inj h
        refine Or.inl ⟨ht.symm, fun s hs => ?_⟩
        rw [← hr] at hs
        exact Or.inr ⟨h1, by omega, congrArg some (Except.ok.inj hs)⟩
      | none =>
        by_cases hoff : t.data.length ≤ readU32At t.stringOffsets (4 * idx)
        · rw [get_eq_of_oob h1 (by omega) hc hoff] at h
          obtain ⟨hr, ht⟩ := pair_some_inj h
          refine Or.inl ⟨ht.symm, fun s hs => ?_⟩
          rw [← hr] at hs
          exact absurd hs (by simp)
        · rw [get_eq_of_miss h1 (by omega) hc (by omega)] at h
          cases hdec : decodeAt t (readU32At t.stringOffsets (4 * idx)) with
          | error e =>
            simp only [hdec] at h
            obtain ⟨hr, ht⟩ := pair_some_inj h
            refine Or.inl ⟨ht.symm, fun s hs => ?_⟩
            rw [← hr] at hs
            exact absurd hs (by simp)
          | ok res =>
            simp only [hdec] at h
            cases hcache : t.cache with
            | none => simp only [hcache] at h; simp at h
            | some m =>
              simp only [hcache] at h
              obtain ⟨hr, ht⟩ := pair_some_inj h
              exact Or.inr ⟨res, m, hr.symm, rfl, rfl, h1, by omega,
                rfl, ht.symm⟩

/-- C3: a successful get(i) populates the cache so that a second
get(i) returns the identical string from the cache without re-decode;
cache entries are never removed or overwritten and always equal the
pure re-decode of the data region at that index's table offset; a
failed lookup leaves the whole table (hence the cache and every other
entry) unchanged. -/
theorem claim_c3 :
    (∀ (t : StringTable) (idx : Nat) (s : List Nat) (t' : StringTable),
      get t idx = some (.ok s, t') → get t' idx = some (.ok s, t')) ∧
    (∀ (t : StringTable) (idx : Nat) (s : List Nat) (t' : StringTable),
      idx ≠ 4294967295 → idx < t.stringOffsets.length / 4 →
      get t idx = some (.ok s, t') → cacheLookup t'.cache idx = some s) ∧
    (∀ (t : StringTable) (idx : Nat) (r : Except PErr (List Nat))
        (t' : StringTable), get t idx = some (r, t') →
      ∀ (j : Nat) (s0 : List Nat), cacheLookup t.cache j = some s0 →
        cacheLookup t'.cache j = some s0) ∧
    (∀ t : StringTable, cacheConsistent t →
      ∀ (idx : Nat) (r : Except PErr (List Nat)) (t' : StringTable),
        get t idx = some (r, t') → cacheConsistent t') ∧
    (∀ (t : StringTable) (idx : Nat) (e : PErr) (t' : StringTable),
      get t idx = some (.error e, t') → t' = t) := by
  refine ⟨?_, ?_, ?_, ?_, ?_⟩
  · intro t idx s t' h
    rcases get_cases t idx (.ok s) t' h with ⟨ht, hs⟩ |
      ⟨s', m, hr, hcache, hc, h1, h2, hdec, ht⟩
    · subst ht
      rcases hs s rfl with ⟨hi, hse⟩ | ⟨h1, h2, hhit⟩
      · subst hi; subst hse; simp [get]
      · exact get_eq_of_hit h1 h2 hhit
    · obtain rfl : s = s' := Except.ok.inj hr
      subst ht
      refine get_eq_of_hit h1 (by simpa using h2) ?_
      exact cacheLookup_insert_self m idx s
  · intro t idx s t' h1 h2 h
    rcases get_cases t idx (.ok s) t' h with ⟨ht, hs⟩ |
      ⟨s', m, hr, hcache, hc, h1', h2', hdec, ht⟩
    · subst ht
      rcases hs s rfl with ⟨he, _⟩ | ⟨_, _, hhit⟩
      · exact absurd he h1
      · exact hhit
    · obtain rfl : s = s' := Except.ok.inj hr
      subst ht
      exact cacheLookup_insert_self m idx s
  · intro t idx r t' h j s0 hj
    rcases get_cases t idx r t' h with ⟨ht, _⟩ |
      ⟨s', m, hr, hcache, hc, h1, h2, hdec, ht⟩
    · subst ht; exact hj
    · subst ht
      by_cases hji : j = idx
      · subst hji
        rw [hj] at hc
        simp at hc
      · rw [hcache] at hj
        rw [show cacheLookup (some ((idx, s') :: m)) j = cacheLookup (some m) j
          from cacheLookup_insert_ne m hji s']
        exact hj
  · intro t hcons idx r t' h
    rcases get_cases t idx r t' h with ⟨ht, _⟩ |
      ⟨s', m, hr, hcache, hc, h1, h2, hdec, ht⟩
    · subst ht; exact hcons
    · subst ht
      intro j s hj
      by_cases hji : j = idx
      · subst hji
        rw [show cacheLookup (some ((j, s') :: m)) j = some s' from
          cacheLookup_insert_self m j s'] at hj
        simp only [Option.some.injEq] at hj
        subst hj
        exact hdec
      · rw [cacheLookup_insert_ne m hji s'] at hj
        rw [← hcache] at hj
        exact hcons j s hj
  · intro t idx e t' h
    rcases get_cases t idx (.error e) t' h with ⟨ht, _⟩ | ⟨s', m, hr, _⟩
    · exact ht
    · simp at hr

/-- Witness for C3: on a one-string UTF-16 pool, a first successful
get(0) caches the decoded string and a second get(0) returns it with
the table unchanged. -/
theorem claim_c3_witness :
    get ⟨false, [0, 0, 0, 0], [0, 0], some [(0, [])]⟩ 0 =
      some (.ok [], ⟨false, [0, 0, 0, 0], [0, 0], some [(0, [])]⟩) := by
  have h0 : get ⟨false, [0, 0, 0, 0], [0, 0], some []⟩ 0 =
      some (.ok [], ⟨false, [0, 0, 0, 0], [0, 0], some [(0, [])]⟩) := rfl
  exact claim_c3.1 ⟨false, [0, 0, 0, 0], [0, 0], some []⟩ 0 []
    ⟨false, [0, 0, 0, 0], [0, 0], some [(0, [])]⟩ h0

/-- C6: for an in-range, not-yet-cached index, get reads the
little-endian uint32 at byte position 4*i of the raw offset table and
fails with the offset-out-of-bounds error exactly when that offset is
not below the data length; and the bound is only checked at lookup
time: a concrete pool whose sole table entry (99) is out of bounds
still constructs successfully. -/
theorem claim_c6 :
    (∀ (t : StringTable) (idx : Nat), idx ≠ 4294967295 →
      idx < t.stringOffsets.length / 4 → cacheLookup t.cache idx = none →
      (get t idx =
          some (.error (.offsetOutOfBounds idx
            (readU32At t.stringOffsets (4 * idx))), t) ↔
        t.data.length ≤ readU32At t.stringOffsets (4 * idx))) ∧
    (parseStringTable (mkChunk 1 0 0 32 0 [99, 0, 0, 0]) =
        .ok ⟨false, [99, 0, 0, 0], [], some []⟩ ∧
      (⟨false, [99, 0, 0, 0], [], some []⟩ : StringTable).data.length ≤
        readU32At [99, 0, 0, 0] 0) := by
  constructor
  · intro t idx h1 h2 hc
    constructor
    · intro h
      by_contra hoff
      rw [get_eq_of_miss h1 h2 hc (by omega)] at h
      cases hdec : decodeAt t (readU32At t.stringOffsets (4 * idx)) with
      | error e =>
        simp only [hdec] at h
        have he := Except.error.inj (pair_some_inj h).1
        rcases decodeAt_error hdec with h' | h' | ⟨b, h'⟩ <;>
          (subst h'; simp at he)
      | ok res =>
        simp only [hdec] at h
        cases hcache : t.cache with
        | none => simp only [hcache] at h; simp at h
        | some m =>
          simp only [hcache] at h
          exact absurd (pair_some_inj h).1 (by simp)
    · intro hoff
      exact get_eq_of_oob h1 h2 hc hoff
  · exact ⟨rfl, by decide⟩

theorem readBytes_le {n : Nat} {s : List Nat} (h : n ≤ s.length) :
    readBytes n s = some (s.take n, s.drop n) := by
  rw [readBytes, if_pos h]

theorem readBytes_gt {n : Nat} {s : List Nat} (h : s.length < n) :
    readBytes n s = none := by
  rw [readBytes, if_neg (by omega)]

theorem parseStringTable_mkChunk {cnt sty flags off sty2 : Nat}
    (hcnt : cnt < 4294967296) (hflags : flags < 4294967296)
    (hoff : off < 4294967296) (rest : List Nat) :
    parseStringTable (mkChunk cnt sty flags off sty2 rest) =
      (let isUtf8 : Bool := flags &&& 0x100 != 0
       let flags1 := if isUtf8 then flags &&& u32compl 0x100 else flags
       let flags2 := flags1 &&& u32compl 0x1
       if flags2 ≠ 0 then .error (.unknownFlag flags2)
       else if cnt ≥ 2 * 1024 * 1024 then .error (.tooManyStrings cnt)
       else
         match readBytes (4 * cnt) rest with
         | none => .error .readOffsets
         | some (stringOffsets, s) =>
           let remainder : Int := (off : Int) - 7 * 4 - 4 * (cnt : Int)
           if remainder < 0 then .error (.wrongStringOffset remainder)
           else
             match readBytes remainder.toNat s with
             | none => .error .readStyleArray
             | some (_, s) =>
               .ok { isUtf8 := isUtf8, stringOffsets := stringOffsets,
                     data := s, cache := some [] }) := by
  simp only [parseStringTable, mkChunk, readU32_u32le hcnt,
    readBytes_exact (n := 4) (u32le sty) _ rfl, readU32_u32le hflags,
    readU32_u32le hoff, readBytes_exact (n := 4) (u32le sty2) _ rfl]

theorem testBit_4294967295 (i : Nat) :
    Nat.testBit 4294967295 i = decide (i < 32) := by
  rw [show (4294967295 : Nat) = 2 ^ 32 - 1 by norm_num,
    Nat.testBit_two_pow_sub_one]

theorem testBit_256 (i : Nat) : Nat.testBit 256 i = decide (8 = i) := by
  rw [show (256 : Nat) = 2 ^ 8 by norm_num, Nat.testBit_two_pow]

theorem testBit_one (i : Nat) : Nat.testBit 1 i = decide (0 = i) := by
  rw [show (1 : Nat) = 2 ^ 0 by norm_num, Nat.testBit_two_pow]

theorem testBit_u32compl_one (j : Nat) :
    (u32compl 1).testBit j = (decide (j < 32) && !(decide (0 = j))) := by
  have e : u32compl 1 = (2 ^ 31 - 1) <<< 1 := by decide
  rw [e, Nat.testBit_shiftLeft, Nat.testBit_two_pow_sub_one]
  by_cases h0 : 0 = j
  · subst h0
    decide
  · have e1 : (j ≥ 1) = True := by
      apply eq_true
      omega
    have e2 : (j - 1 < 31) = (j < 32) := by
      apply propext
      constructor <;> (intro; omega)
    simp [e1, e2, h0]

theorem and256_ne_iff (flags : Nat) :
    (flags &&& 256 != 0) = flags.testBit 8 := by
  have e := Nat.and_two_pow flags 8
  norm_num at e
  rw [e]
  cases flags.testBit 8 <;> simp

theorem flags2_testBit (flags i : Nat) :
    ((if (flags &&& 256 != 0) = true then flags &&& u32compl 256 else flags) &&&
        u32compl 1).testBit i =
      (flags.testBit i && decide (i < 32) && !(decide (0 = i)) &&
        !(decide (8 = i))) := by
  by_cases hU : (flags &&& 256 != 0) = true
  · rw [if_pos hU]
    simp only [u32compl, Nat.testBit_and, Nat.testBit_xor,
      testBit_4294967295, testBit_256, testBit_one]
    by_cases h0 : i = 0
    · subst h0; simp
    · by_cases h8 : i = 8
      · subst h8; simp
      · by_cases h32 : i < 32 <;>
          simp [h0, h8, h32, eq_comm]
  · rw [if_neg hU]
    have h8f : flags.testBit 8 = false := by
      rw [← and256_ne_iff flags]
      simpa using hU
    simp only [u32compl, Nat.testBit_and, Nat.testBit_xor,
      testBit_4294967295, testBit_one]
    by_cases h0 : i = 0
    · subst h0; simp
    · by_cases h8 : i = 8
      · subst h8; simp [h8f]
      · by_cases h32 : i < 32 <;>
          simp [h0, h8, h32, eq_comm]

/-- Witness for C6: a pool with one table entry 99 pointing past a
two-byte data region fails lookup 0 with offset-out-of-bounds. -/
theorem claim_c6_witness :
    get ⟨false, [99, 0, 0, 0], [0, 0], some []⟩ 0 =
      some (.error (.offsetOutOfBounds 0 99),
        ⟨false, [99, 0, 0, 0], [0, 0], some []⟩) := by
  have h := (claim_c6.1 ⟨false, [99, 0, 0, 0], [0, 0], some []⟩ 0
    (by decide) (by decide) (by decide)).mpr (by decide)
  simpa using h

/-- C7: construction fails with the unknown-flag error exactly when the
flags word has some bit set outside bits 0 (sorted) and 8 (UTF-8); on
success bit 8 selected UTF-8 mode; and the sorted bit 0x1 is ignored
completely (setting it or clearing it yields identical results). -/
theorem claim_c7 (cnt sty flags off sty2 : Nat) (rest : List Nat)
    (hcnt : cnt < 4294967296) (hflags : flags < 4294967296)
    (hoff : off < 4294967296) :
    ((∃ f, parseStringTable (mkChunk cnt sty flags off sty2 rest) =
        .error (.unknownFlag f)) ↔
      ∃ i, i ≠ 0 ∧ i ≠ 8 ∧ flags.testBit i) ∧
    (∀ t, parseStringTable (mkChunk cnt sty flags off sty2 rest) = .ok t →
      t.isUtf8 = flags.testBit 8) ∧
    parseStringTable (mkChunk cnt sty (flags ||| 1) off sty2 rest) =
      parseStringTable (mkChunk cnt sty (flags &&& u32compl 1) off sty2 rest) := by
  have hor : flags ||| 1 < 4294967296 := by
    have h2 := Nat.or_lt_two_pow (x := flags) (y := 1) (n := 32)
      (by norm_num [hflags]) (by norm_num)
    norm_num at h2
    exact h2
  have hand : flags &&& u32compl 1 < 4294967296 := by
    have h2 := Nat.and_lt_two_pow flags
      (by decide : u32compl 1 < 2 ^ 32)
    norm_num at h2
    exact h2
  refine ⟨?_, ?_, ?_⟩
  · rw [parseStringTable_mkChunk hcnt hflags hoff]
    constructor
    · rintro ⟨f, hf⟩
      by_cases hF2 : ((if (flags &&& 256 != 0) = true then
          flags &&& u32compl 256 else flags) &&& u32compl 1) = 0
      · rw [if_neg (by simpa using hF2)] at hf
        exfalso
        by_cases hcnt2 : cnt ≥ 2 * 1024 * 1024
        · rw [if_pos hcnt2] at hf; simp at hf
        · rw [if_neg hcnt2] at hf
          cases hrb : readBytes (4 * cnt) rest with
          | none => simp only [hrb] at hf; simp at hf
          | some v =>
            obtain ⟨ob, s2⟩ := v
            simp only [hrb] at hf
            by_cases hrem : (off : Int) - 7 * 4 - 4 * (cnt : Int) < 0
            · rw [if_pos hrem] at hf; simp at hf
            · rw [if_neg hrem] at hf
              cases hrb2 : readBytes
                  ((off : Int) - 7 * 4 - 4 * (cnt : Int)).toNat s2 with
              | none => simp only [hrb2] at hf; simp at hf
              | some v2 =>
                obtain ⟨a, b⟩ := v2
                simp only [hrb2] at hf
                simp at hf
      · obtain ⟨i, hi⟩ := Nat.ne_zero_implies_bit_true hF2
        rw [flags2_testBit] at hi
        simp only [Bool.and_eq_true, Bool.not_eq_true',
          decide_eq_false_iff_not, decide_eq_true_eq] at hi
        obtain ⟨⟨⟨hbit, _⟩, h0⟩, h8⟩ := hi
        exact ⟨i, fun he => h0 he.symm, fun he => h8 he.symm, hbit⟩
    · rintro ⟨i, hi0, hi8, hbit⟩
      have hi32 : i < 32 := by
        by_contra hge
        have hf : flags.testBit i = false := by
          apply Nat.testBit_lt_two_pow
          calc flags < 4294967296 := hflags
            _ = 2 ^ 32 := by norm_num
            _ ≤ 2 ^ i := Nat.pow_le_pow_right (by norm_num) (by omega)
        simp [hf] at hbit
      have hbit2 : ((if (flags &&& 256 != 0) = true then
          flags &&& u32compl 256 else flags) &&& u32compl 1).testBit i = true := by
        have h0' : ¬(0 = i) := fun he => hi0 he.symm
        have h8' : ¬(8 = i) := fun he => hi8 he.symm
        rw [flags2_testBit, hbit]
        simp [hi32, h0', h8']
      have hne : ((if (flags &&& 256 != 0) = true then
          flags &&& u32compl 256 else flags) &&& u32compl 1) ≠ 0 := by
        intro h0
        rw [h0] at hbit2
        simp at hbit2
      exact ⟨_, by rw [if_pos hne]⟩
  · intro t ht
    rw [parseStringTable_mkChunk hcnt hflags hoff] at ht
    by_cases hF2 : ((if (flags &&& 256 != 0) = true then
        flags &&& u32compl 256 else flags) &&& u32compl 1) = 0
    · rw [if_neg (by simpa using hF2)] at ht
      rw [← and256_ne_iff flags]
      by_cases hcnt2 : cnt ≥ 2 * 1024 * 1024
      · rw [if_pos hcnt2] at ht; simp at ht
      · rw [if_neg hcnt2] at ht
        cases hrb : readBytes (4 * cnt) rest with
        | none => simp only [hrb] at ht; simp at ht
        | some v =>
          obtain ⟨ob, s2⟩ := v
          simp only [hrb] at ht
          by_cases hrem : (off : Int) - 7 * 4 - 4 * (cnt : Int) < 0
          · rw [if_pos hrem] at ht; simp at ht
          · rw [if_neg hrem] at ht
            cases hrb2 : readBytes
                ((off : Int) - 7 * 4 - 4 * (cnt : Int)).toNat s2 with
            | none => simp only [hrb2] at ht; simp at ht
            | some v2 =>
              obtain ⟨a, b⟩ := v2
              simp only [hrb2] at ht
              rw [← Except.ok.inj ht]
    · rw [if_pos hF2] at ht
      simp at ht
  · rw [parseStringTable_mkChunk hcnt hor hoff,
      parseStringTable_mkChunk hcnt hand hoff]
    have e1 : ((flags ||| 1) &&& 256 != 0) =
        ((flags &&& u32compl 1) &&& 256 != 0) := by
      rw [and256_ne_iff, and256_ne_iff]
      have hc : (u32compl 1).testBit 8 = true := by decide
      simp [Nat.testBit_or, Nat.testBit_and, testBit_one, hc]
    have e2 : (if ((flags ||| 1) &&& 256 != 0) = true then
          (flags ||| 1) &&& u32compl 256 else (flags ||| 1)) &&& u32compl 1 =
        (if ((flags &&& u32compl 1) &&& 256 != 0) = true then
          (flags &&& u32compl 1) &&& u32compl 256
          else (flags &&& u32compl 1)) &&& u32compl 1 := by
      apply Nat.eq_of_testBit_eq
      intro j
      rw [flags2_testBit, flags2_testBit]
      by_cases h0 : j = 0
      · subst h0; simp
      · have h0' : ¬(0 = j) := fun he => h0 he.symm
        have ha : (flags ||| 1).testBit j = flags.testBit j := by
          simp [Nat.testBit_or, testBit_one, h0']
        have hb : (flags &&& u32compl 1).testBit j =
            (flags.testBit j && (decide (j < 32) && !(decide (0 = j)))) := by
          simp [Nat.testBit_and, testBit_u32compl_one]
        rw [ha, hb]
        by_cases h32 : j < 32 <;> simp [h32, h0']
    simp only [e2]
    simp only [e1]

/-- Witness for C7: with flags = 2 the sorted bit can be set or cleared
without changing the construction result on a concrete stream. -/
theorem claim_c7_witness :
    parseStringTable (mkChunk 0 0 (2 ||| 1) 28 0 []) =
      parseStringTable (mkChunk 0 0 (2 &&& u32compl 1) 28 0 []) :=
  (claim_c7 0 0 2 28 0 [] (by norm_num) (by norm_num) (by norm_num)).2.2

/-- C8 counterexample: a stream declaring stringCount = 2097152 (which
is 2*1024*1024) that is truncated right after the count does not fail
with the too-many-strings error: the style-count read fails first, so
the claim "always fails with too many strings" is false as stated. -/
theorem claim_c8_counterexample :
    readU32 [0, 0, 32, 0] = some (2097152, []) ∧
    parseStringTable [0, 0, 32, 0] = .error PErr.readStyleCnt :=
  ⟨rfl, rfl⟩

/-- C8 (amended): provided the 20-byte header reads successfully and
the flags are valid, construction fails with too-many-strings exactly
when stringCount is at least 2*1024*1024, and in that case it fails
this way whatever bytes follow the header (the offset table is never
read); smaller counts never produce this error. -/
theorem claim_c8_amended (cnt sty flags off sty2 : Nat) (rest : List Nat)
    (hcnt : cnt < 4294967296) (hoff : off < 4294967296)
    (hflags : flags = 0 ∨ flags = 1 ∨ flags = 256 ∨ flags = 257) :
    (parseStringTable (mkChunk cnt sty flags off sty2 rest) =
        .error (.tooManyStrings cnt) ↔ 2 * 1024 * 1024 ≤ cnt) ∧
    (2 * 1024 * 1024 ≤ cnt →
      parseStringTable (mkChunk cnt sty flags off sty2 rest) =
        .error (.tooManyStrings cnt)) := by
  rcases hflags with rfl | rfl | rfl | rfl <;>
    (rw [parseStringTable_mkChunk hcnt (by norm_num) hoff,
        if_neg (by decide)]
     refine ⟨⟨fun h => ?_, fun hge => by rw [if_pos hge]⟩,
       fun hge => by rw [if_pos hge]⟩
     by_contra hlt
     rw [if_neg hlt] at h
     cases hrb : readBytes (4 * cnt) rest with
     | none => simp only [hrb] at h; simp at h
     | some v =>
       obtain ⟨ob, s2⟩ := v
       simp only [hrb] at h
       by_cases hrem : (off : Int) - 7 * 4 - 4 * (cnt : Int) < 0
       · rw [if_pos hrem] at h; simp at h
       · rw [if_neg hrem] at h
         cases hrb2 : readBytes
             ((off : Int) - 7 * 4 - 4 * (cnt : Int)).toNat s2 with
         | none => simp only [hrb2] at h; simp at h
         | some v2 =>
           obtain ⟨a, b⟩ := v2
           simp only [hrb2] at h
           simp at h)

/-- Witness for C8 (amended) at the boundary count 2097152. -/
theorem claim_c8_witness :
    parseStringTable (mkChunk 2097152 0 0 28 0 []) =
      .error (.tooManyStrings 2097152) :=
  (claim_c8_amended 2097152 0 0 28 0 [] (by norm_num) (by norm_num)
    (Or.inl rfl)).2 (by norm_num)

/-- C9: after the offset table, construction computes the signed
remainder stringDataOffset - 28 - 4*stringCount; a negative remainder
is the inconsistent-offset error, a nonnegative remainder discards
exactly that many bytes (failing with a short read when fewer remain),
and on success every byte left in the bounded stream becomes the data
region. -/
theorem claim_c9 (cnt sty off sty2 : Nat) (u8 : Bool)
    (offBytes rest2 : List Nat) (hcnt : cnt < 2097152)
    (hoff : off < 4294967296) (hlen : offBytes.length = 4 * cnt) :
    ((off : Int) - 7 * 4 - 4 * (cnt : Int) < 0 →
      parseStringTable (mkChunk cnt sty (if u8 then 256 else 0) off sty2
          (offBytes ++ rest2)) =
        .error (.wrongStringOffset ((off : Int) - 7 * 4 - 4 * (cnt : Int)))) ∧
    (0 ≤ (off : Int) - 7 * 4 - 4 * (cnt : Int) →
      ((off : Int) - 7 * 4 - 4 * (cnt : Int)).toNat ≤ rest2.length →
      parseStringTable (mkChunk cnt sty (if u8 then 256 else 0) off sty2
          (offBytes ++ rest2)) =
        .ok ⟨u8, offBytes,
          rest2.drop ((off : Int) - 7 * 4 - 4 * (cnt : Int)).toNat,
          some []⟩) ∧
    (0 ≤ (off : Int) - 7 * 4 - 4 * (cnt : Int) →
      rest2.length < ((off : Int) - 7 * 4 - 4 * (cnt : Int)).toNat →
      parseStringTable (mkChunk cnt sty (if u8 then 256 else 0) off sty2
          (offBytes ++ rest2)) =
        .error PErr.readStyleArray) := by
  cases u8 <;>
    (rw [parseStringTable_mkChunk (by omega) (by decide) hoff,
        if_neg (by decide), if_neg (by omega)]
     simp only [readBytes_exact offBytes rest2 hlen]
     refine ⟨fun hneg => ?_, fun hpos hle => ?_, fun hpos hgt => ?_⟩
     · rw [if_pos hneg]
     · rw [if_neg (not_lt.mpr hpos)]
       simp only [readBytes_le hle]
       rfl
     · rw [if_neg (not_lt.mpr hpos)]
       simp only [readBytes_gt hgt])

/-- Witness for C9: count 0 with declared data offset 30 discards the
two padding bytes and keeps the remaining byte as the data region. -/
theorem claim_c9_witness :
    parseStringTable (mkChunk 0 0 0 30 0 ([] ++ [9, 9, 7])) =
      .ok ⟨false, [],
        List.drop ((30 : Int) - 7 * 4 - 4 * (0 : Int)).toNat [9, 9, 7],
        some []⟩ :=
  (claim_c9 0 0 30 0 false [] [9, 9, 7] (by norm_num) (by norm_num)
    rfl).2.1 (by norm_num) (by norm_num)

theorem parseStringTable_ok_cache : ∀ {s : List Nat} {t : StringTable},
    parseStringTable s = .ok t → t.cache = some [] := by
  intro s t h
  unfold parseStringTable at h
  cases h0 : readU32 s with
  | none => simp only [h0] at h; exact absurd h (by simp)
  | some v0 =>
    obtain ⟨cnt, s1⟩ := v0
    simp only [h0] at h
    cases h1 : readBytes 4 s1 with
    | none => simp only [h1] at h; exact absurd h (by simp)
    | some v1 =>
      obtain ⟨d1, s2⟩ := v1
      simp only [h1] at h
      cases h2 : readU32 s2 with
      | none => simp only [h2] at h; exact absurd h (by simp)
      | some v2 =>
        obtain ⟨flags, s3⟩ := v2
        simp only [h2] at h
        by_cases hf : ((if (flags &&& 256 != 0) = true then
            flags &&& u32compl 256 else flags) &&& u32compl 1) ≠ 0
        · rw [if_pos hf] at h; exact absurd h (by simp)
        · rw [if_neg hf] at h
          cases h3 : readU32 s3 with
          | none => simp only [h3] at h; exact absurd h (by simp)
          | some v3 =>
            obtain ⟨off, s4⟩ := v3
            simp only [h3] at h
            cases h4 : readBytes 4 s4 with
            | none => simp only [h4] at h; exact absurd h (by simp)
            | some v4 =>
              obtain ⟨d2, s5⟩ := v4
              simp only [h4] at h
              by_cases hcnt : cnt ≥ 2 * 1024 * 1024
              · rw [if_pos hcnt] at h; exact absurd h (by simp)
              · rw [if_neg hcnt] at h
                cases h5 : readBytes (4 * cnt) s5 with
                | none => simp only [h5] at h; exact absurd h (by simp)
                | some v5 =>
                  obtain ⟨ob, s6⟩ := v5
                  simp only [h5] at h
                  by_cases hrem : (off : Int) - 7 * 4 - 4 * (cnt : Int) < 0
                  · rw [if_pos hrem] at h; exact absurd h (by simp)
                  · rw [if_neg hrem] at h
                    cases h6 : readBytes
                        ((off : Int) - 7 * 4 - 4 * (cnt : Int)).toNat s6 with
                    | none => simp only [h6] at h; exact absurd h (by simp)
                    | some v6 =>
                      obtain ⟨d3, s7⟩ := v6
                      simp only [h6] at h
                      rw [← Except.ok.inj h]

/-- C10 counterexample: parseStringTable initializes the cache to an
empty non-nil map as its last step, so on a minimal valid stream the
freshly constructed pool, whose cache was never populated, already has
isEmpty() = false, contradicting the claim. -/
theorem claim_c10_counterexample :
    parseStringTable
        [0, 0, 0, 0, 0, 0, 0, 0, 0, 0, 0, 0, 28, 0, 0, 0, 0, 0, 0, 0] =
      .ok ⟨false, [], [], some []⟩ ∧
    isEmpty ⟨false, [], [], some []⟩ = false :=
  ⟨rfl, rfl⟩

/-- C10 (amended): isEmpty() reports whether the cache map is nil (the
Go zero value, i.e. the table never finished construction), not whether
it is unpopulated: successful construction always installs an empty
non-nil cache, making isEmpty() false before any get, and get never
changes the value of isEmpty(). -/
theorem claim_c10_amended :
    (∀ t : StringTable, isEmpty t = t.cache.isNone) ∧
    (∀ (s : List Nat) (t : StringTable), parseStringTable s = .ok t →
      t.cache = some [] ∧ isEmpty t = false) ∧
    (∀ (t : StringTable) (idx : Nat) (r : Except PErr (List Nat))
        (t' : StringTable), get t idx = some (r, t') →
      isEmpty t' = isEmpty t) := by
  refine ⟨fun t => rfl, ?_, ?_⟩
  · intro s t h
    have hc := parseStringTable_ok_cache h
    exact ⟨hc, by simp [isEmpty, hc]⟩
  · intro t idx r t' h
    rcases get_cases t idx r t' h with ⟨ht, _⟩ |
      ⟨s', m, _, hcache, _, _, _, _, ht⟩
    · rw [ht]
    · subst ht
      simp [isEmpty, hcache]

/-- Witness for C10 (amended): the pool built from the minimal valid
stream has a non-nil empty cache and isEmpty() = false. -/
theorem claim_c10_witness :
    (⟨false, [], [], some []⟩ : StringTable).cache = some [] ∧
    isEmpty ⟨false, [], [], some []⟩ = false :=
  claim_c10_amended.2.1
    [0, 0, 0, 0, 0, 0, 0, 0, 0, 0, 0, 0, 28, 0, 0, 0, 0, 0, 0, 0]
    ⟨false, [], [], some []⟩ rfl

end ApkParser
